import Mathlib

/-!
Shallow embedding of the push-coordination module (`asyncgit/src/push.rs`) and
of the text-input widget (`src/components/textinput.rs`) of the repository,
together with proofs about the embedded operations.

`PushProgress::new` performs its percent computation in IEEE-754 binary32
(`f32`) arithmetic.  We model `f32` values as exact rationals and each `f32`
operation as the exact operation followed by rounding to nearest, ties to
even, on a 24-bit significand (`rne`).  All values reached by the code are in
the binary32 normal range (inputs are `usize`, hence below `2^64`, ratios are
in `(2^-65, 1]` or zero, and products stay below `101`), so neither
subnormals, infinities nor overflow arise; the single NaN case (`0.0/0.0`,
when `max current total = 0`) is handled explicitly where it occurs.
-/

/-- Round a rational to the nearest integer, ties to even
(the IEEE-754 default rounding applied to a scaled significand). -/
def roundHalfEven (x : ℚ) : ℤ :=
  let f := ⌊x⌋
  let r := x - (f : ℚ)
  if r < 1/2 then f
  else if 1/2 < r then f + 1
  else if f % 2 = 0 then f else f + 1

/-- Round a nonnegative rational to the nearest IEEE-754 binary32 value
(returned as an exact rational): scale into a 24-bit significand using the
binade exponent `Int.log 2 q` and round to nearest, ties to even.
All quantities appearing in `PushProgress::new` are in the normal range. -/
def rne (q : ℚ) : ℚ :=
  if q ≤ 0 then 0
  else
    let e := Int.log 2 q
    (roundHalfEven (q * 2 ^ (23 - e)) : ℚ) * 2 ^ (e - 23)

/-- The `f32` pipeline of `PushProgress::new`
(`asyncgit/src/push.rs:38`-`47`):
`let total = cmp::max(current, total) as f32;`
`let progress = current as f32 / total * 100.0;`
`let progress = progress as u8;`.
When `max current total = 0` the division is `0.0 / 0.0 = NaN`, and
`NaN as u8 = 0` in Rust; otherwise `as u8` truncates toward zero and
saturates at `255`. -/
def pushProgressValue (current total : ℕ) : ℕ :=
  let total' := max current total
  if total' = 0 then 0
  else
    let tf := rne (total' : ℚ)
    let cf := rne (current : ℚ)
    min 255 (Int.toNat ⌊rne (100 * rne (cf / tf))⌋)

/-- `PushProgressState` (`asyncgit/src/push.rs:18`-`25`). -/
inductive PushProgressState
  | PackingAddingObject
  | PackingDeltafiction
  | Pushing
deriving DecidableEq

/-- `PushProgress` (`asyncgit/src/push.rs:29`-`34`); `progress` is the `u8`
field, modelled as a natural number (always `< 256`). -/
structure PushProgress where
  state : PushProgressState
  progress : ℕ
deriving DecidableEq

/-- `PushProgress::new` (`asyncgit/src/push.rs:38`-`47`). -/
def PushProgress.new (state : PushProgressState) (current total : ℕ) :
    PushProgress :=
  ⟨state, pushProgressValue current total⟩

/-- `git2::PackBuilderStage`, as matched in `asyncgit/src/push.rs:57`-`67`. -/
inductive PackBuilderStage
  | AddingObjects
  | Deltafication
deriving DecidableEq

/-- Modelled from the spec: `sync::ProgressNotification` is defined outside
the provided sources (only `asyncgit/src/push.rs` consumes it).  Spec section 3
("RawProgressEvent") lists its variants: packing phases with
`(current, total)` counters, a transfer phase with byte/object counters, and a
terminal `Done` sentinel with no payload.  The `bytes` field of `PushTransfer`
stands for the extra fields elided by `..` in the `match` at
`asyncgit/src/push.rs:69`-`72`. -/
inductive ProgressNotification
  | Packing (stage : PackBuilderStage) (current total : ℕ)
  | PushTransfer (current total bytes : ℕ)
  | Done
deriving DecidableEq

/-- `impl From<ProgressNotification> for PushProgress`
(`asyncgit/src/push.rs:50`-`82`).  The wildcard arm of the source `match`
covers exactly the `Done` sentinel for the modelled variants. -/
def pushProgressOfNotification : ProgressNotification → PushProgress
  | .Packing .AddingObjects current total =>
      PushProgress.new .PackingAddingObject current total
  | .Packing .Deltafication current total =>
      PushProgress.new .PackingDeltafiction current total
  | .PushTransfer current total _ =>
      PushProgress.new .Pushing current total
  | .Done => PushProgress.new .Pushing 1 1

/-- `PushRequest` (`asyncgit/src/push.rs:86`-`91`). -/
structure PushRequest where
  remote : String
  branch : String
deriving DecidableEq

/-- `PushState` (`asyncgit/src/push.rs:93`-`96`). -/
structure PushState where
  request : PushRequest
deriving DecidableEq

/-- The three shared slots of `AsyncPush` (`asyncgit/src/push.rs:99`-`104`):
`state`, `last_result` and `progress`, each behind its own `Arc<Mutex<_>>`.
The notification `sender` is modelled by the effect traces below. -/
structure AsyncPushShared where
  state : Option PushState
  lastResult : Option String
  progress : Option ProgressNotification
deriving DecidableEq

/-- `AsyncPush::is_pending` (`asyncgit/src/push.rs:118`-`121`). -/
def isPending (st : AsyncPushShared) : Bool :=
  st.state.isSome

/-- `AsyncPush::last_result` (`asyncgit/src/push.rs:124`-`127`): clones the
slot and returns it; the shared state is left exactly as it was. -/
def lastResultCall (st : AsyncPushShared) : Option String × AsyncPushShared :=
  (st.lastResult, st)

/-- `AsyncPush::progress` (`asyncgit/src/push.rs:130`-`133`): maps the raw
slot through the `From` conversion. -/
def progressRead (st : AsyncPushShared) : Option PushProgress :=
  st.progress.map pushProgressOfNotification

/-- `AsyncPush::set_request` (`asyncgit/src/push.rs:223`-`235`): errors with
`Error::Generic("pending request")` when a request is already stored,
otherwise stores the parameters. -/
def setRequest (st : AsyncPushShared) (params : PushRequest) :
    Except String AsyncPushShared :=
  if st.state.isSome then .error "pending request"
  else .ok { st with state := some ⟨params⟩ }

/-- `AsyncPush::set_result` (`asyncgit/src/push.rs:261`-`276`): the value
stored into the `last_result` slot — `None` on success, `Some(message)` on
failure. -/
def resultValue : Except String Unit → Option String
  | .ok _ => none
  | .error e => some e

/-- `AsyncPush::request` (`asyncgit/src/push.rs:136`-`183`), up to the point
where the worker thread is spawned.  Returns the shared state at spawn time,
`some params` iff a worker thread was spawned (with the request it runs), and
the `Result` returned to the caller. -/
def request (st : AsyncPushShared) (params : PushRequest) :
    AsyncPushShared × Option PushRequest × Except String Unit :=
  if isPending st then (st, none, .ok ())
  else
    match setRequest st params with
    | .error e => (st, none, .error e)
    | .ok st1 => ({ st1 with progress := none }, some params, .ok ())

/-- One observable side effect of the worker/relay threads.  `publishProgress`
and `notify` are the relay loop's slot write (`push.rs:196`) and channel send
(`push.rs:201`); `writeResult`, `clearState` and `notifyDone` are the worker's
terminal `set_result` (`push.rs:173`), `clear_request` (`push.rs:175`) and
final `AsyncNotification::Push` send (`push.rs:177`).  Both `notify` and
`notifyDone` send the same `AsyncNotification::Push` value; the labels record
the sending site. -/
inductive Effect
  | publishProgress (e : ProgressNotification)
  | notify
  | writeResult (r : Option String)
  | clearState
  | notifyDone
deriving DecidableEq

/-- The relay loop of `AsyncPush::spawn_receiver_thread`
(`asyncgit/src/push.rs:192`-`220`) as an effect trace: for each received
event it first overwrites the progress slot, then sends a notification, and
only then breaks if the event was the `Done` sentinel.  An exhausted list
models the channel closing without a sentinel (the `Err` arm: log and break).
Each effect is paired with the shared state after it. -/
def relaySteps : List ProgressNotification → AsyncPushShared →
    List (Effect × AsyncPushShared)
  | [], _ => []
  | e :: rest, st =>
      let st1 := { st with progress := some e }
      (.publishProgress e, st1) :: (.notify, st1) ::
        (if e = ProgressNotification.Done then [] else relaySteps rest st1)

/-- The shared state after the relay loop of `spawn_receiver_thread` has
processed the given events (same loop as `relaySteps`, final state only). -/
def relayFinal : List ProgressNotification → AsyncPushShared → AsyncPushShared
  | [], st => st
  | e :: rest, st =>
      let st1 := { st with progress := some e }
      if e = ProgressNotification.Done then st1 else relayFinal rest st1

/-- The shared state after the worker closure (`asyncgit/src/push.rs:151`-
`180`) finishes: the backend emitted `events` and returned `res`; the worker
appended the `Done` sentinel, joined the relay, stored the result and cleared
the request slot. -/
def workerFinal (st : AsyncPushShared) (events : List ProgressNotification)
    (res : Except String Unit) : AsyncPushShared :=
  let st1 := relayFinal (events ++ [ProgressNotification.Done]) st
  { st1 with lastResult := resultValue res, state := none }

/-- The full effect trace of one worker run (`asyncgit/src/push.rs:151`-
`180`): the relay's publish/notify effects (the worker joins the relay thread
before touching any slot), then `set_result`, then `clear_request`, then the
single completion notification. -/
def workerTrace (st : AsyncPushShared) (events : List ProgressNotification)
    (res : Except String Unit) : List (Effect × AsyncPushShared) :=
  let st1 := relayFinal (events ++ [ProgressNotification.Done]) st
  let st2 := { st1 with lastResult := resultValue res }
  let st3 := { st2 with state := none }
  relaySteps (events ++ [ProgressNotification.Done]) st ++
    [(.writeResult (resultValue res), st2), (.clearState, st3),
      (.notifyDone, st3)]

/-- A complete accepted-or-rejected `request` followed, when a worker was
spawned, by that worker's whole run (backend events `events`, backend result
`res`).  Returns the final shared state. -/
def runPush (st : AsyncPushShared) (params : PushRequest)
    (events : List ProgressNotification) (res : Except String Unit) :
    AsyncPushShared :=
  match request st params with
  | (st1, some _, _) => workerFinal st1 events res
  | (st1, none, _) => st1

/-- The events published to the progress slot along a trace, in order. -/
def publishedEvents (t : List (Effect × AsyncPushShared)) :
    List ProgressNotification :=
  t.filterMap fun p =>
    match p.1 with
    | .publishProgress e => some e
    | _ => none

/-- Count of relay notifications (`notify` effects) in a trace. -/
def notifyCount (t : List (Effect × AsyncPushShared)) : ℕ :=
  t.countP fun p => p.1 = Effect.notify

/-- Count of `writeResult` effects in a trace. -/
def writeResultCount (t : List (Effect × AsyncPushShared)) : ℕ :=
  t.countP fun p =>
    match p.1 with
    | .writeResult _ => true
    | _ => false

/-- Byte length of a character sequence under UTF-8, i.e. Rust's
`String::len` for the string with these characters. -/
def utf8Len (s : List Char) : ℕ :=
  (s.map Char.utf8Size).sum

/-- Rust's `str::is_char_boundary` for the string with characters `s` at byte
index `i`: true at `0` and at the end, true exactly at the starts of encoded
characters, false beyond the end. -/
def isBoundary : List Char → ℕ → Bool
  | _, 0 => true
  | [], _ + 1 => false
  | c :: s, i + 1 =>
      if i + 1 < c.utf8Size then false else isBoundary s (i + 1 - c.utf8Size)

/-- The loop of `TextInputComponent::decr_cursor`
(`src/components/textinput.rs:66`-`72`) after the initial `saturating_sub`:
`while index > 0 && !self.msg.is_char_boundary(index) { index -= 1 }`. -/
def scanPrev (s : List Char) : ℕ → ℕ
  | 0 => 0
  | i + 1 => if isBoundary s (i + 1) then i + 1 else scanPrev s i

/-- The loop of `TextInputComponent::next_char_position`
(`src/components/textinput.rs:81`-`87`):
`while index < self.msg.len() && !self.msg.is_char_boundary(index)`
`{ index += 1 }`, compiled with the explicit decreasing counter
`utf8Len s - i` (the loop only runs while `i < utf8Len s`). -/
def scanNextAux (s : List Char) : ℕ → ℕ → ℕ
  | 0, i => i
  | fuel + 1, i =>
      if isBoundary s i then i else scanNextAux s fuel (i + 1)

/-- First char boundary of `s` at or after `i`, capped at `utf8Len s`
(the loop of `next_char_position`). -/
def scanNext (s : List Char) (i : ℕ) : ℕ :=
  scanNextAux s (utf8Len s - i) i

/-- Rust `String::insert(i, c)` on the character sequence: `none` models the
panic on a non-boundary or out-of-range index. -/
def insertAt : List Char → ℕ → Char → Option (List Char)
  | s, 0, c => some (c :: s)
  | [], _ + 1, _ => none
  | d :: s, i + 1, c =>
      if i + 1 < d.utf8Size then none
      else (insertAt s (i + 1 - d.utf8Size) c).map (d :: ·)

/-- Rust `String::remove(i)` on the character sequence: removes the character
whose first byte is at index `i`; `none` models the panic on a non-boundary
or out-of-range index. -/
def removeAt : List Char → ℕ → Option (List Char)
  | [], _ => none
  | _ :: s, 0 => some s
  | d :: s, i + 1 =>
      if i + 1 < d.utf8Size then none
      else (removeAt s (i + 1 - d.utf8Size)).map (d :: ·)

/-- `TextInputComponent` (`src/components/textinput.rs:18`-`26`).  `msg` is
the character sequence of the Rust `String`; byte positions into it are taken
w.r.t. `utf8Len`/`isBoundary`.  The `theme` and `key_config` fields carry no
edited state and are omitted. -/
structure TextInputComponent where
  title : String
  default_msg : String
  msg : List Char
  visible : Bool
  cursor_position : ℕ
deriving DecidableEq

namespace TextInputComponent

/-- `TextInputComponent::new` (`src/components/textinput.rs:30`-`45`). -/
def new (title default_msg : String) : TextInputComponent :=
  ⟨title, default_msg, [], false, 0⟩

/-- `TextInputComponent::clear` (`src/components/textinput.rs:48`-`51`). -/
def clear (st : TextInputComponent) : TextInputComponent :=
  { st with msg := [], cursor_position := 0 }

/-- `TextInputComponent::get_text` (`src/components/textinput.rs:54`-`56`). -/
def get_text (st : TextInputComponent) : List Char :=
  st.msg

/-- `TextInputComponent::next_char_position`
(`src/components/textinput.rs:77`-`88`). -/
def next_char_position (st : TextInputComponent) : Option ℕ :=
  if st.cursor_position ≥ utf8Len st.msg then none
  else some (scanNext st.msg (st.cursor_position + 1))

/-- `TextInputComponent::incr_cursor` (`src/components/textinput.rs:59`-`63`). -/
def incr_cursor (st : TextInputComponent) : TextInputComponent :=
  match st.next_char_position with
  | some pos => { st with cursor_position := pos }
  | none => st

/-- `TextInputComponent::decr_cursor` (`src/components/textinput.rs:66`-`72`). -/
def decr_cursor (st : TextInputComponent) : TextInputComponent :=
  { st with cursor_position := scanPrev st.msg (st.cursor_position - 1) }

/-- `TextInputComponent::backspace` (`src/components/textinput.rs:90`-`95`);
`none` models a panic of `String::remove` (shown below never to happen from a
valid state). -/
def backspace (st : TextInputComponent) : Option TextInputComponent :=
  if st.cursor_position > 0 then
    let st1 := st.decr_cursor
    (removeAt st1.msg st1.cursor_position).map fun m => { st1 with msg := m }
  else some st

/-- `TextInputComponent::set_text` (`src/components/textinput.rs:98`-`101`). -/
def set_text (st : TextInputComponent) (msg : List Char) : TextInputComponent :=
  { st with msg := msg, cursor_position := 0 }

/-- `TextInputComponent::set_title` (`src/components/textinput.rs:104`-`106`). -/
def set_title (st : TextInputComponent) (t : String) : TextInputComponent :=
  { st with title := t }

/-- `Component::hide for TextInputComponent`
(`src/components/textinput.rs:259`-`261`). -/
def hide (st : TextInputComponent) : TextInputComponent :=
  { st with visible := false }

/-- `Component::show for TextInputComponent`
(`src/components/textinput.rs:263`-`267`); named `show'` because `show` is a
Lean keyword. -/
def show' (st : TextInputComponent) : TextInputComponent :=
  { st with visible := true }

end TextInputComponent

/-- The `crossterm` key codes distinguished by the `match` in
`TextInputComponent::event` (`src/components/textinput.rs:216`-`249`);
`other` stands for every code the wildcard arm ignores. -/
inductive KeyCode
  | char (c : Char)
  | delete
  | backspace
  | left
  | right
  | home
  | endKey
  | other
deriving DecidableEq

/-- A key event as consumed by `TextInputComponent::event`: its code, whether
the CONTROL modifier is held, and whether the whole event equals the
configured `key_config.exit_popup` event (the comparison
`e == self.key_config.exit_popup` at `src/components/textinput.rs:208`). -/
structure KeyEvent where
  code : KeyCode
  ctrl : Bool
  isExitPopup : Bool
deriving DecidableEq

/-- `Component::event for TextInputComponent`
(`src/components/textinput.rs:205`-`253`).  Returns the updated component and
the `Ok(bool)` consumption flag; `none` models a `String::insert`/
`String::remove` panic (shown below never to happen from a valid state). -/
def TextInputComponent.event (st : TextInputComponent) (e : KeyEvent) :
    Option (TextInputComponent × Bool) :=
  if st.visible then
    if e.isExitPopup then some (st.hide, true)
    else
      match e.code with
      | .char c =>
          if ¬e.ctrl then
            match insertAt st.msg st.cursor_position c with
            | some m => some (TextInputComponent.incr_cursor { st with msg := m }, true)
            | none => none
          else some (st, false)
      | .delete =>
          if st.cursor_position < utf8Len st.msg then
            match removeAt st.msg st.cursor_position with
            | some m => some ({ st with msg := m }, true)
            | none => none
          else some (st, true)
      | .backspace => st.backspace.map fun st1 => (st1, true)
      | .left => some (st.decr_cursor, true)
      | .right => some (st.incr_cursor, true)
      | .home => some ({ st with cursor_position := 0 }, true)
      | .endKey => some ({ st with cursor_position := utf8Len st.msg }, true)
      | .other => some (st, false)
  else some (st, false)

/-- The cursor invariant of `TextInputComponent`: the cursor sits on a UTF-8
character boundary of `msg` (which entails `cursor_position ≤ utf8Len msg`). -/
def CursorInv (st : TextInputComponent) : Prop :=
  st.cursor_position ≤ utf8Len st.msg ∧
    isBoundary st.msg st.cursor_position = true

instance (st : TextInputComponent) : Decidable (CursorInv st) := by
  unfold CursorInv; infer_instance

/-! ### Lemmas about the relay and worker traces -/

theorem relaySteps_effects (l : List ProgressNotification)
    (st : AsyncPushShared) (p : Effect × AsyncPushShared)
    (hp : p ∈ relaySteps l st) :
    (∃ e, p.1 = Effect.publishProgress e) ∨ p.1 = Effect.notify := by
  induction l generalizing st with
  | nil => simp [relaySteps] at hp
  | cons e rest ih =>
      simp only [relaySteps, List.mem_cons] at hp
      rcases hp with h | h | h
      · exact Or.inl ⟨e, by simp [h]⟩
      · exact Or.inr (by simp [h])
      · split at h
        · simp at h
        · exact ih _ h

theorem relaySteps_writeResultCount (l : List ProgressNotification)
    (st : AsyncPushShared) :
    writeResultCount (relaySteps l st) = 0 := by
  rw [writeResultCount, List.countP_eq_zero]
  intro p hp
  rcases relaySteps_effects l st p hp with ⟨e, he⟩ | he <;> simp [he]

/-- Claim C1: a `request` while a run is pending returns `Ok`, spawns no
worker and changes nothing; `set_request` with a stored request errors and
leaves the state slot unchanged. -/
theorem request_pending_noop (st : AsyncPushShared) (params : PushRequest) :
    (isPending st = true →
      request st params = (st, none, Except.ok ())) ∧
    (st.state.isSome = true →
      setRequest st params = Except.error "pending request") := by
  constructor
  · intro h
    simp [request, h]
  · intro h
    simp [setRequest, h]

theorem request_pending_noop_witness :
    isPending ⟨some ⟨⟨"origin", "main"⟩⟩, none, none⟩ = true ∧
    request ⟨some ⟨⟨"origin", "main"⟩⟩, none, none⟩ ⟨"other", "dev"⟩ =
      (⟨some ⟨⟨"origin", "main"⟩⟩, none, none⟩, none, Except.ok ()) ∧
    setRequest ⟨some ⟨⟨"origin", "main"⟩⟩, none, none⟩ ⟨"other", "dev"⟩ =
      Except.error "pending request" :=
  ⟨rfl,
    (request_pending_noop ⟨some ⟨⟨"origin", "main"⟩⟩, none, none⟩
      ⟨"other", "dev"⟩).1 rfl,
    (request_pending_noop ⟨some ⟨⟨"origin", "main"⟩⟩, none, none⟩
      ⟨"other", "dev"⟩).2 rfl⟩

/-- Claim C2, counterexample: with zero non-terminal events the relay loop
still performs one publish and one notification — for the `Done` sentinel
itself — and overwrites the progress slot with the sentinel, instead of
performing zero publish steps and leaving the slot untouched. -/
theorem relay_publishes_sentinel :
    publishedEvents
        (relaySteps [ProgressNotification.Done] ⟨none, none, none⟩) =
      [ProgressNotification.Done] ∧
    notifyCount (relaySteps [ProgressNotification.Done] ⟨none, none, none⟩) =
      1 ∧
    (relayFinal [ProgressNotification.Done] ⟨none, none, none⟩).progress =
      some ProgressNotification.Done :=
  ⟨rfl, rfl, rfl⟩

/-- Claim C2, amended: for a sequence of `N` non-terminal events followed by
the `Done` sentinel, the relay loop performs exactly `N + 1`
normalize-publish-notify steps — one per non-terminal event, in order, and a
final one for the sentinel itself, which it publishes to the progress slot
and notifies before exiting. -/
theorem relay_trace_shape (raws : List ProgressNotification)
    (st : AsyncPushShared) (h : ProgressNotification.Done ∉ raws) :
    publishedEvents
        (relaySteps (raws ++ [ProgressNotification.Done]) st) =
      raws ++ [ProgressNotification.Done] ∧
    notifyCount (relaySteps (raws ++ [ProgressNotification.Done]) st) =
      raws.length + 1 ∧
    (relayFinal (raws ++ [ProgressNotification.Done]) st).progress =
      some ProgressNotification.Done := by
  induction raws generalizing st with
  | nil =>
      exact ⟨rfl, rfl, rfl⟩
  | cons e rest ih =>
      have he : e ≠ ProgressNotification.Done := fun hc => h (hc ▸ List.mem_cons_self e rest)
      have hrest : ProgressNotification.Done ∉ rest := fun hc => h (List.mem_cons_of_mem e hc)
      obtain ⟨ih1, ih2, ih3⟩ := ih { st with progress := some e } hrest
      refine ⟨?_, ?_, ?_⟩
      · simp only [List.cons_append, relaySteps, if_neg he, publishedEvents,
          List.filterMap_cons] at ih1 ⊢
        simpa using ih1
      · simp only [notifyCount] at ih2 ⊢
        simp only [List.cons_append, relaySteps, if_neg he]
        simp [List.countP_cons]
        omega
      · simp only [List.cons_append, relayFinal, if_neg he]
        exact ih3

theorem relay_trace_shape_witness :
    ProgressNotification.Done ∉ [ProgressNotification.PushTransfer 50 100 0] ∧
    publishedEvents
        (relaySteps
          ([ProgressNotification.PushTransfer 50 100 0] ++
            [ProgressNotification.Done]) ⟨none, none, none⟩) =
      [ProgressNotification.PushTransfer 50 100 0,
        ProgressNotification.Done] ∧
    notifyCount
        (relaySteps
          ([ProgressNotification.PushTransfer 50 100 0] ++
            [ProgressNotification.Done]) ⟨none, none, none⟩) = 2 ∧
    (relayFinal
        ([ProgressNotification.PushTransfer 50 100 0] ++
          [ProgressNotification.Done]) ⟨none, none, none⟩).progress =
      some ProgressNotification.Done :=
  ⟨by decide,
    (relay_trace_shape [ProgressNotification.PushTransfer 50 100 0]
      ⟨none, none, none⟩ (by decide)).1,
    (relay_trace_shape [ProgressNotification.PushTransfer 50 100 0]
      ⟨none, none, none⟩ (by decide)).2.1,
    (relay_trace_shape [ProgressNotification.PushTransfer 50 100 0]
      ⟨none, none, none⟩ (by decide)).2.2⟩

/-- Claim C5: in every worker run the terminal side effects come in the
strict order result-write, state-clear, completion notification (the
notification is the last effect of the run, everything before the terminal
three is relay publish/notify traffic), and the state paired with the
completion notification is idle and carries the finished run's result. -/
theorem worker_terminal_order (st : AsyncPushShared)
    (events : List ProgressNotification) (res : Except String Unit) :
    ∃ pre st2,
      workerTrace st events res =
        pre ++ [(Effect.writeResult (resultValue res), st2),
          (Effect.clearState, workerFinal st events res),
          (Effect.notifyDone, workerFinal st events res)] ∧
      st2.lastResult = resultValue res ∧
      (workerFinal st events res).state = none ∧
      (workerFinal st events res).lastResult = resultValue res ∧
      isPending (workerFinal st events res) = false ∧
      (∀ p ∈ pre, (∃ e, p.1 = Effect.publishProgress e) ∨
        p.1 = Effect.notify) := by
  refine ⟨relaySteps (events ++ [ProgressNotification.Done]) st,
    { relayFinal (events ++ [ProgressNotification.Done]) st with
        lastResult := resultValue res }, rfl, rfl, rfl, rfl, rfl, ?_⟩
  exact relaySteps_effects (events ++ [ProgressNotification.Done]) st

/-- Claim C6: each completed run overwrites the last-result slot exactly once
with the backend outcome — `none` for success, the error's message for
failure — and the `last_result` accessor returns the slot without mutating
anything. -/
theorem last_result_semantics (st : AsyncPushShared)
    (events : List ProgressNotification) (res : Except String Unit) :
    writeResultCount (workerTrace st events res) = 1 ∧
    (workerFinal st events res).lastResult = resultValue res ∧
    resultValue (Except.ok ()) = none ∧
    (∀ m, resultValue (Except.error m) = some m) ∧
    (∀ s, lastResultCall s = (s.lastResult, s)) := by
  refine ⟨?_, rfl, rfl, fun m => rfl, fun s => rfl⟩
  rw [workerTrace]
  show writeResultCount
    (relaySteps (events ++ [ProgressNotification.Done]) st ++ _) = 1
  rw [writeResultCount, List.countP_append, ← writeResultCount,
    relaySteps_writeResultCount]
  rfl

/-! ### Lemmas about binary32 rounding -/

theorem roundHalfEven_le (x : ℚ) : (roundHalfEven x : ℚ) ≤ x + 1/2 := by
  have hf := Int.floor_le x
  have hf1 := Int.lt_floor_add_one x
  rw [roundHalfEven]
  split
  · linarith
  · split
    · push_cast
      rename_i hgt _
      rw [not_lt] at hgt
      linarith
    · split <;> push_cast <;> [linarith; skip]
      rename_i hgt hle _
      rw [not_lt] at hgt hle
      linarith

theorem le_roundHalfEven (x : ℚ) : x - 1/2 ≤ (roundHalfEven x : ℚ) := by
  have hf := Int.floor_le x
  have hf1 := Int.lt_floor_add_one x
  rw [roundHalfEven]
  split
  · rename_i hlt
    linarith
  · split
    · push_cast
      linarith
    · split <;> push_cast <;> [skip; linarith]
      rename_i hgt hle _
      rw [not_lt] at hgt hle
      linarith

theorem roundHalfEven_intCast (n : ℤ) : roundHalfEven (n : ℚ) = n := by
  rw [roundHalfEven]
  norm_num

/-- `Int.log 2` is determined by the binade bounds. -/
theorem log2_eq_of {q : ℚ} {e : ℤ} (h0 : 0 < q) (h1 : (2:ℚ)^e ≤ q)
    (h2 : q < (2:ℚ)^(e+1)) : Int.log 2 q = e := by
  have hcast : ((2:ℕ):ℚ) = (2:ℚ) := by norm_num
  have hle : e ≤ Int.log 2 q :=
    (Int.zpow_le_iff_le_log (by norm_num) h0).1 (by rw [hcast]; exact h1)
  have hge : Int.log 2 q ≤ e := by
    by_contra hc
    push_neg at hc
    have hmono : (2:ℚ)^(e+1) ≤ (2:ℚ)^(Int.log 2 q) :=
      zpow_le_zpow_right₀ (by norm_num) (by omega)
    have hlog : (2:ℚ)^(Int.log 2 q) ≤ q := by
      rw [← hcast]; exact Int.zpow_log_le_self (by norm_num) h0
    linarith
  omega

/-- Evaluation rule for `rne` once the binade and the rounded significand are
known. -/
theorem rne_eq_of {q : ℚ} {e : ℤ} {v : ℚ} (h0 : 0 < q) (h1 : (2:ℚ)^e ≤ q)
    (h2 : q < (2:ℚ)^(e+1))
    (h3 : (roundHalfEven (q * 2 ^ ((23:ℤ) - e)) : ℚ) * 2 ^ (e - (23:ℤ)) = v) :
    rne q = v := by
  rw [rne, if_neg (not_le.mpr h0), log2_eq_of h0 h1 h2]
  exact h3

theorem roundHalfEven_eq_of_lt {x : ℚ} {f : ℤ} (h1 : (f:ℚ) ≤ x)
    (h2 : x < (f:ℚ) + 1/2) : roundHalfEven x = f := by
  have hf : ⌊x⌋ = f := Int.floor_eq_iff.mpr ⟨h1, by linarith⟩
  rw [roundHalfEven]
  simp only [hf]
  rw [if_pos (by linarith)]

theorem roundHalfEven_eq_of_gt {x : ℚ} {f : ℤ} (h1 : (f:ℚ) + 1/2 < x)
    (h2 : x < (f:ℚ) + 1) : roundHalfEven x = f + 1 := by
  have hf : ⌊x⌋ = f := Int.floor_eq_iff.mpr ⟨by linarith, h2⟩
  rw [roundHalfEven]
  simp only [hf]
  rw [if_neg (by linarith), if_pos (by linarith)]

theorem rne_zero : rne 0 = 0 := by
  rw [rne, if_pos le_rfl]

/-- Relative error bound, upper side: rounding to 24 significand bits adds at
most one part in `2^24`. -/
theorem rne_upper {q : ℚ} (h : 0 ≤ q) : rne q ≤ q + q / 2^24 := by
  rcases eq_or_lt_of_le h with heq | hq
  · rw [← heq, rne_zero]
    norm_num
  · rw [rne, if_neg (not_le.mpr hq)]
    set e := Int.log 2 q with he
    have hcast : ((2:ℕ):ℚ) = (2:ℚ) := by norm_num
    have h1 : (2:ℚ)^e ≤ q := by
      rw [← hcast]; exact Int.zpow_log_le_self (by norm_num) hq
    have hpow_pos : (0:ℚ) < 2 ^ (e - 23) := zpow_pos (by norm_num) _
    have hrhe : (roundHalfEven (q * 2 ^ ((23:ℤ) - e)) : ℚ) ≤
        q * 2 ^ ((23:ℤ) - e) + 1/2 := roundHalfEven_le _
    have hmul : (roundHalfEven (q * 2 ^ ((23:ℤ) - e)) : ℚ) * 2 ^ (e - 23) ≤
        (q * 2 ^ ((23:ℤ) - e) + 1/2) * 2 ^ (e - 23) :=
      mul_le_mul_of_nonneg_right hrhe (le_of_lt hpow_pos)
    have hcancel : q * 2 ^ ((23:ℤ) - e) * 2 ^ (e - 23) = q := by
      rw [mul_assoc, ← zpow_add₀ (two_ne_zero (α := ℚ))]
      norm_num
    have hhalf : (1/2 : ℚ) * 2 ^ (e - 23) = 2 ^ (e - 24) := by
      rw [show (e - 23 : ℤ) = 1 + (e - 24) by ring,
        zpow_add₀ (two_ne_zero (α := ℚ))]
      ring
    have hsmall : (2:ℚ) ^ (e - 24) ≤ q / 2^24 := by
      rw [show (e - 24 : ℤ) = e + (-24) by ring,
        zpow_add₀ (two_ne_zero (α := ℚ))]
      have h24 : (2:ℚ) ^ (-24 : ℤ) = 1/2^24 := by norm_num
      rw [h24]
      rw [div_eq_mul_one_div q]
      exact mul_le_mul_of_nonneg_right h1 (by norm_num)
    calc (roundHalfEven (q * 2 ^ ((23:ℤ) - e)) : ℚ) * 2 ^ (e - 23)
        ≤ (q * 2 ^ ((23:ℤ) - e) + 1/2) * 2 ^ (e - 23) := hmul
      _ = q + (1/2 : ℚ) * 2 ^ (e - 23) := by rw [add_mul, hcancel]
      _ = q + 2 ^ (e - 24) := by rw [hhalf]
      _ ≤ q + q / 2^24 := by linarith

/-- Relative error bound, lower side. -/
theorem rne_lower {q : ℚ} (h : 0 ≤ q) : q - q / 2^24 ≤ rne q := by
  rcases eq_or_lt_of_le h with heq | hq
  · rw [← heq, rne_zero]
    norm_num
  · rw [rne, if_neg (not_le.mpr hq)]
    set e := Int.log 2 q with he
    have hcast : ((2:ℕ):ℚ) = (2:ℚ) := by norm_num
    have h1 : (2:ℚ)^e ≤ q := by
      rw [← hcast]; exact Int.zpow_log_le_self (by norm_num) hq
    have hpow_pos : (0:ℚ) < 2 ^ (e - 23) := zpow_pos (by norm_num) _
    have hrhe : q * 2 ^ ((23:ℤ) - e) - 1/2 ≤
        (roundHalfEven (q * 2 ^ ((23:ℤ) - e)) : ℚ) := le_roundHalfEven _
    have hmul : (q * 2 ^ ((23:ℤ) - e) - 1/2) * 2 ^ (e - 23) ≤
        (roundHalfEven (q * 2 ^ ((23:ℤ) - e)) : ℚ) * 2 ^ (e - 23) :=
      mul_le_mul_of_nonneg_right hrhe (le_of_lt hpow_pos)
    have hcancel : q * 2 ^ ((23:ℤ) - e) * 2 ^ (e - 23) = q := by
      rw [mul_assoc, ← zpow_add₀ (two_ne_zero (α := ℚ))]
      norm_num
    have hhalf : (1/2 : ℚ) * 2 ^ (e - 23) = 2 ^ (e - 24) := by
      rw [show (e - 23 : ℤ) = 1 + (e - 24) by ring,
        zpow_add₀ (two_ne_zero (α := ℚ))]
      ring
    have hsmall : (2:ℚ) ^ (e - 24) ≤ q / 2^24 := by
      rw [show (e - 24 : ℤ) = e + (-24) by ring,
        zpow_add₀ (two_ne_zero (α := ℚ))]
      have h24 : (2:ℚ) ^ (-24 : ℤ) = 1/2^24 := by norm_num
      rw [h24]
      rw [div_eq_mul_one_div q]
      exact mul_le_mul_of_nonneg_right h1 (by norm_num)
    calc q - q / 2^24 ≤ q - 2 ^ (e - 24) := by linarith
      _ = (q * 2 ^ ((23:ℤ) - e) - 1/2) * 2 ^ (e - 23) := by
          rw [sub_mul, hcancel, hhalf]
      _ ≤ _ := hmul

theorem rne_nonneg {q : ℚ} (h : 0 ≤ q) : 0 ≤ rne q := by
  have := rne_lower h
  have h24 : q - q / 2^24 = q * (1 - 1/2^24) := by ring
  nlinarith [this]

/-! ### Concrete binary32 evaluations -/

theorem rne_nat_1 : rne 1 = 1 := by
  apply rne_eq_of (e := 0)
  · norm_num
  · norm_num
  · norm_num
  · have h : roundHalfEven ((1:ℚ) * 2 ^ ((23:ℤ) - 0)) = 8388608 := by
      apply roundHalfEven_eq_of_lt <;> norm_num
    rw [h]
    norm_num

theorem rne_nat_2 : rne 2 = 2 := by
  apply rne_eq_of (e := 1)
  · norm_num
  · norm_num
  · norm_num
  · have h : roundHalfEven ((2:ℚ) * 2 ^ ((23:ℤ) - 1)) = 8388608 := by
      apply roundHalfEven_eq_of_lt <;> norm_num
    rw [h]
    norm_num

theorem rne_nat_10 : rne 10 = 10 := by
  apply rne_eq_of (e := 3)
  · norm_num
  · norm_num
  · norm_num
  · have h : roundHalfEven ((10:ℚ) * 2 ^ ((23:ℤ) - 3)) = 10485760 := by
      apply roundHalfEven_eq_of_lt <;> norm_num
    rw [h]
    norm_num

theorem rne_nat_53 : rne 53 = 53 := by
  apply rne_eq_of (e := 5)
  · norm_num
  · norm_num
  · norm_num
  · have h : roundHalfEven ((53:ℚ) * 2 ^ ((23:ℤ) - 5)) = 13893632 := by
      apply roundHalfEven_eq_of_lt <;> norm_num
    rw [h]
    norm_num

theorem rne_nat_100 : rne 100 = 100 := by
  apply rne_eq_of (e := 6)
  · norm_num
  · norm_num
  · norm_num
  · have h : roundHalfEven ((100:ℚ) * 2 ^ ((23:ℤ) - 6)) = 13107200 := by
      apply roundHalfEven_eq_of_lt <;> norm_num
    rw [h]
    norm_num

/-- The binary32 value nearest to `2/10` is `13421773/2^26`
(`0.2` is not exactly representable and rounds up). -/
theorem rne_2_div_10 : rne ((2:ℚ) / 10) = 13421773 / 67108864 := by
  apply rne_eq_of (e := -3)
  · norm_num
  · norm_num
  · norm_num
  · have h : roundHalfEven ((2:ℚ) / 10 * 2 ^ ((23:ℤ) - (-3))) =
        13421772 + 1 := by
      apply roundHalfEven_eq_of_gt <;> norm_num
    rw [h]
    norm_num

/-- Multiplying the rounded `0.2` by `100` rounds back down to exactly `20`. -/
theorem rne_2_div_10_step2 :
    rne ((100:ℚ) * (13421773 / 67108864)) = 20 := by
  apply rne_eq_of (e := 4)
  · norm_num
  · norm_num
  · norm_num
  · have h : roundHalfEven ((100:ℚ) * (13421773 / 67108864) *
        2 ^ ((23:ℤ) - 4)) = 10485760 := by
      apply roundHalfEven_eq_of_lt <;> norm_num
    rw [h]
    norm_num

/-- The binary32 value nearest to `53/100` is `8891924/2^24`, which is
strictly below `0.53`. -/
theorem rne_53_div_100 : rne ((53:ℚ) / 100) = 8891924 / 16777216 := by
  apply rne_eq_of (e := -1)
  · norm_num
  · norm_num
  · norm_num
  · have h : roundHalfEven ((53:ℚ) / 100 * 2 ^ ((23:ℤ) - (-1))) =
        8891924 := by
      apply roundHalfEven_eq_of_lt <;> norm_num
    rw [h]
    norm_num

/-- Multiplying the rounded `0.53` by `100` yields `13893631/2^18`, still
strictly below `53`. -/
theorem rne_53_div_100_step2 :
    rne ((100:ℚ) * (8891924 / 16777216)) = 13893631 / 262144 := by
  apply rne_eq_of (e := 5)
  · norm_num
  · norm_num
  · norm_num
  · have h : roundHalfEven ((100:ℚ) * (8891924 / 16777216) *
        2 ^ ((23:ℤ) - 5)) = 13893631 := by
      apply roundHalfEven_eq_of_lt <;> norm_num
    rw [h]
    norm_num

theorem pushProgressValue_1_1 : pushProgressValue 1 1 = 100 := by
  rw [pushProgressValue]
  norm_num [rne_nat_1, rne_nat_100]
  rfl

theorem pushProgressValue_1_0 : pushProgressValue 1 0 = 100 := by
  rw [pushProgressValue]
  norm_num [rne_nat_1, rne_nat_100]
  rfl

theorem pushProgressValue_2_10 : pushProgressValue 2 10 = 20 := by
  rw [pushProgressValue]
  norm_num
  rw [rne_nat_2, rne_nat_10, rne_2_div_10, rne_2_div_10_step2]
  have hf : ⌊(20:ℚ)⌋ = 20 := by norm_num
  rw [hf]
  rfl

theorem pushProgressValue_53_100 : pushProgressValue 53 100 = 52 := by
  rw [pushProgressValue]
  norm_num
  rw [rne_nat_53, rne_nat_100, rne_53_div_100, rne_53_div_100_step2]
  have hf : ⌊(13893631:ℚ) / 262144⌋ = 52 := by norm_num [Int.floor_eq_iff]
  rw [hf]
  rfl

theorem pushProgressValue_zero (t : ℕ) : pushProgressValue 0 t = 0 := by
  rcases Nat.eq_zero_or_pos t with ht | ht
  · subst ht
    simp [pushProgressValue]
  · simp only [pushProgressValue]
    rw [max_eq_right (Nat.zero_le t), if_neg (by omega)]
    norm_num [rne_zero]

theorem pushProgressValue_full {c t : ℕ} (hc : 1 ≤ c) (ht : t ≤ c) :
    pushProgressValue c t = 100 := by
  have hmax : max c t = c := max_eq_left ht
  simp only [pushProgressValue, hmax]
  rw [if_neg (by omega)]
  have h1 : (1:ℚ) ≤ (c:ℚ) := by exact_mod_cast hc
  have hpos : 0 < rne (c:ℚ) := by
    have hlo := rne_lower (le_trans zero_le_one h1)
    have hlt : (c:ℚ)/2^24 < (c:ℚ) := div_lt_self (by linarith) (by norm_num)
    linarith
  rw [div_self (ne_of_gt hpos), rne_nat_1]
  norm_num [rne_nat_100]
  rfl

theorem pushProgressValue_le_100 (c t : ℕ) : pushProgressValue c t ≤ 100 := by
  by_cases hmax : max c t = 0
  · simp [pushProgressValue, hmax]
  · simp only [pushProgressValue]
    rw [if_neg hmax]
    have hcT : c ≤ max c t := le_max_left c t
    have hT1 : 1 ≤ max c t := by omega
    have hc0 : (0:ℚ) ≤ (c:ℚ) := Nat.cast_nonneg c
    have hTq1 : (1:ℚ) ≤ ((max c t : ℕ):ℚ) := by exact_mod_cast hT1
    have hcTq : (c:ℚ) ≤ ((max c t : ℕ):ℚ) := by exact_mod_cast hcT
    have hTq0 : (0:ℚ) < ((max c t : ℕ):ℚ) := by linarith
    have hTdiv : ((max c t : ℕ):ℚ)/2^24 < ((max c t : ℕ):ℚ) :=
      div_lt_self hTq0 (by norm_num)
    have htf_lo := rne_lower (le_of_lt hTq0)
    have htf_pos : 0 < rne ((max c t : ℕ):ℚ) := by linarith
    have hcf_hi := rne_upper hc0
    have hcf_nn := rne_nonneg hc0
    have hr_nn : 0 ≤ rne (c:ℚ) / rne ((max c t : ℕ):ℚ) :=
      div_nonneg hcf_nn (le_of_lt htf_pos)
    have hr_le : rne (c:ℚ) / rne ((max c t : ℕ):ℚ) ≤
        (((max c t : ℕ):ℚ) + ((max c t : ℕ):ℚ)/2^24) /
          (((max c t : ℕ):ℚ) - ((max c t : ℕ):ℚ)/2^24) :=
      div_le_div₀ (by linarith) (by linarith) (by linarith) htf_lo
    have hfactor : (((max c t : ℕ):ℚ) + ((max c t : ℕ):ℚ)/2^24) /
        (((max c t : ℕ):ℚ) - ((max c t : ℕ):ℚ)/2^24) =
        (1 + 1/2^24) / (1 - 1/2^24) := by
      rw [show ((max c t : ℕ):ℚ) + ((max c t : ℕ):ℚ)/2^24 =
          ((max c t : ℕ):ℚ) * (1 + 1/2^24) by ring,
        show ((max c t : ℕ):ℚ) - ((max c t : ℕ):ℚ)/2^24 =
          ((max c t : ℕ):ℚ) * (1 - 1/2^24) by ring,
        mul_div_mul_left _ _ (ne_of_gt hTq0)]
    have hrB : rne (c:ℚ) / rne ((max c t : ℕ):ℚ) ≤ 1 + 1/2^22 := by
      rw [hfactor] at hr_le
      have hconst : ((1:ℚ) + 1/2^24) / (1 - 1/2^24) ≤ 1 + 1/2^22 := by
        norm_num
      linarith
    have hx_hi := rne_upper hr_nn
    have hx_nn := rne_nonneg hr_nn
    have hxB : rne (rne (c:ℚ) / rne ((max c t : ℕ):ℚ)) ≤ 1 + 1/2^21 := by
      linarith
    have h100_nn : (0:ℚ) ≤ 100 * rne (rne (c:ℚ) / rne ((max c t : ℕ):ℚ)) := by
      linarith
    have hy_hi := rne_upper h100_nn
    have hyB : rne (100 * rne (rne (c:ℚ) / rne ((max c t : ℕ):ℚ))) < 101 := by
      linarith
    have hfl : ⌊rne (100 * rne (rne (c:ℚ) / rne ((max c t : ℕ):ℚ)))⌋ <
        101 := by
      apply Int.floor_lt.mpr
      exact lt_of_lt_of_le hyB (by norm_num)
    have hfl2 : (⌊rne (100 * rne (rne (c:ℚ) /
        rne ((max c t : ℕ):ℚ)))⌋).toNat ≤ 100 := by omega
    exact le_trans (min_le_right _ _) hfl2

/-- Claim C3, counterexample: the spec's exact formula
`floor(current / max(current,total) * 100)` evaluates to `53` at
`current = 53, total = 100`, but the `f32` computation of
`PushProgress::new` rounds `53/100` down to a binary32 value strictly below
`0.53`, and the final truncation yields `52`. -/
theorem push_percent_f32_deviation :
    (PushProgress.new PushProgressState.Pushing 53 100).progress = 52 ∧
    53 * 100 / max 53 100 = 53 ∧ (52 : ℕ) ≠ 53 :=
  ⟨pushProgressValue_53_100, by decide, by decide⟩

/-- Claim C3, amended: the cited instances hold —
`PushProgress::new(_, 1, 0).progress = 100` and
`PushProgress::new(_, 2, 10).progress = 20` — and the exact endpoint cases of
the formula hold for all inputs (`current = 0` gives `0`;
`current ≥ 1` with `total ≤ current` gives `100`); but in general the
percent is computed in `f32` and may differ from
`floor(current / max(current,total) * 100)` by one (e.g. `(53, 100)` gives
`52`, not `53`). -/
theorem push_percent_values (s : PushProgressState) (c t : ℕ) :
    (PushProgress.new s 1 0).progress = 100 ∧
    (PushProgress.new s 2 10).progress = 20 ∧
    (PushProgress.new s 0 t).progress = 0 ∧
    (1 ≤ c → t ≤ c → (PushProgress.new s c t).progress = 100) :=
  ⟨pushProgressValue_1_0, pushProgressValue_2_10, pushProgressValue_zero t,
    fun hc ht => pushProgressValue_full hc ht⟩

theorem push_percent_values_witness :
    1 ≤ 7 ∧ 5 ≤ 7 ∧
    (PushProgress.new PushProgressState.Pushing 7 5).progress = 100 :=
  ⟨by decide, by decide,
    (push_percent_values PushProgressState.Pushing 7 5).2.2.2 (by decide)
      (by decide)⟩

/-- Claim C4: the progress normalizer is total — packing/adding-objects,
packing/deltafication and transfer events map to their respective states
with the percent computed from their counters, and the `Done` sentinel (the
wildcard arm of the source `match`) maps to `Pushing` at percent `100`. -/
theorem normalizer_total (c t b : ℕ) :
    pushProgressOfNotification
        (ProgressNotification.Packing PackBuilderStage.AddingObjects c t) =
      PushProgress.new PushProgressState.PackingAddingObject c t ∧
    pushProgressOfNotification
        (ProgressNotification.Packing PackBuilderStage.Deltafication c t) =
      PushProgress.new PushProgressState.PackingDeltafiction c t ∧
    pushProgressOfNotification (ProgressNotification.PushTransfer c t b) =
      PushProgress.new PushProgressState.Pushing c t ∧
    pushProgressOfNotification ProgressNotification.Done =
      ⟨PushProgressState.Pushing, 100⟩ := by
  refine ⟨rfl, rfl, rfl, ?_⟩
  show PushProgress.new PushProgressState.Pushing 1 1 = _
  rw [PushProgress.new, pushProgressValue_1_1]

/-- Claim C8: the computed progress value lies in `[0, 100]` for every
`current` and `total` (including `current = total = 0`, where the `f32`
division is `NaN` and the cast yields `0`). -/
theorem push_percent_range (s : PushProgressState) (c t : ℕ) :
    0 ≤ (PushProgress.new s c t).progress ∧
    (PushProgress.new s c t).progress ≤ 100 :=
  ⟨Nat.zero_le _, pushProgressValue_le_100 c t⟩

/-- Claim C7, counterexample: after a run accepted from the idle state in
which the backend emitted no progress events, `progress()` does not return
`None` — the worker's `Done` sentinel was published by the relay, so it
returns `Some(Pushing, 100)`. -/
theorem progress_after_eventless_run :
    progressRead
        (runPush ⟨none, none, none⟩ ⟨"origin", "main"⟩ [] (Except.ok ())) =
      some ⟨PushProgressState.Pushing, 100⟩ ∧
    progressRead
        (runPush ⟨none, none, none⟩ ⟨"origin", "main"⟩ [] (Except.ok ())) ≠
      none := by
  have h1 : runPush ⟨none, none, none⟩ ⟨"origin", "main"⟩ []
      (Except.ok ()) =
      ⟨none, none, some ProgressNotification.Done⟩ := rfl
  rw [h1]
  constructor
  · show some (pushProgressOfNotification ProgressNotification.Done) = _
    rw [show pushProgressOfNotification ProgressNotification.Done =
      PushProgress.new PushProgressState.Pushing 1 1 from rfl,
      PushProgress.new, pushProgressValue_1_1]
  · intro h
    simp [progressRead] at h

/-- Claim C7, amended: at the start of every accepted run the progress slot
is reset to `None`; in a run whose backend emits no progress events the only
event the relay publishes is the worker's terminal `Done` sentinel, so after
the run `progress()` returns `Some(Pushing, 100)` rather than `None`. -/
theorem progress_reset_then_sentinel (st : AsyncPushShared)
    (params : PushRequest) (res : Except String Unit)
    (h : isPending st = false) :
    (request st params).1.progress = none ∧
    (request st params).2.1 = some params ∧
    publishedEvents
        (workerTrace (request st params).1 [] res) =
      [ProgressNotification.Done] ∧
    (runPush st params [] res).progress = some ProgressNotification.Done ∧
    progressRead (runPush st params [] res) =
      some ⟨PushProgressState.Pushing, 100⟩ := by
  have hnot : st.state.isSome = false := h
  have hreq : request st params =
      ({ st with state := some ⟨params⟩, progress := none }, some params,
        Except.ok ()) := by
    rw [request, if_neg (by rw [h]; exact Bool.false_ne_true), setRequest,
      if_neg (by rw [hnot]; exact Bool.false_ne_true)]
  refine ⟨by rw [hreq], by rw [hreq], by rw [hreq]; rfl, ?_, ?_⟩
  · rw [runPush, hreq]
    rfl
  · rw [runPush, hreq]
    show some (pushProgressOfNotification ProgressNotification.Done) = _
    rw [show pushProgressOfNotification ProgressNotification.Done =
      PushProgress.new PushProgressState.Pushing 1 1 from rfl,
      PushProgress.new, pushProgressValue_1_1]

theorem progress_reset_then_sentinel_witness :
    isPending ⟨none, some "old", some ProgressNotification.Done⟩ = false ∧
    (request ⟨none, some "old", some ProgressNotification.Done⟩
        ⟨"origin", "main"⟩).1.progress = none ∧
    progressRead
        (runPush ⟨none, some "old", some ProgressNotification.Done⟩
          ⟨"origin", "main"⟩ [] (Except.error "authentication failed")) =
      some ⟨PushProgressState.Pushing, 100⟩ :=
  ⟨rfl,
    (progress_reset_then_sentinel ⟨none, some "old",
      some ProgressNotification.Done⟩ ⟨"origin", "main"⟩
      (Except.error "authentication failed") rfl).1,
    (progress_reset_then_sentinel ⟨none, some "old",
      some ProgressNotification.Done⟩ ⟨"origin", "main"⟩
      (Except.error "authentication failed") rfl).2.2.2.2⟩

/-! ### Lemmas about UTF-8 boundaries and the text-input cursor -/

theorem isBoundary_zero (s : List Char) : isBoundary s 0 = true := by
  cases s <;> rfl

theorem utf8Len_cons (c : Char) (s : List Char) :
    utf8Len (c :: s) = c.utf8Size + utf8Len s := by
  simp [utf8Len]

theorem isBoundary_utf8Len (s : List Char) :
    isBoundary s (utf8Len s) = true := by
  induction s with
  | nil => rfl
  | cons c s ih =>
      have hpos : 0 < c.utf8Size := Char.utf8Size_pos c
      rw [utf8Len_cons]
      obtain ⟨m, hm⟩ : ∃ m, c.utf8Size + utf8Len s = m + 1 :=
        ⟨c.utf8Size + utf8Len s - 1, by omega⟩
      rw [hm, isBoundary, if_neg (by omega),
        show m + 1 - c.utf8Size = utf8Len s by omega]
      exact ih

theorem isBoundary_le (s : List Char) (i : ℕ)
    (h : isBoundary s i = true) : i ≤ utf8Len s := by
  induction s generalizing i with
  | nil =>
      cases i with
      | zero => exact Nat.le_refl 0
      | succ j => simp [isBoundary] at h
  | cons c s ih =>
      cases i with
      | zero => exact Nat.zero_le _
      | succ j =>
          rw [isBoundary] at h
          rw [utf8Len_cons]
          split at h
          · simp at h
          · have := ih _ h
            omega

theorem scanPrev_isBoundary (s : List Char) (i : ℕ) :
    isBoundary s (scanPrev s i) = true := by
  induction i with
  | zero => exact isBoundary_zero s
  | succ j ih =>
      rw [scanPrev]
      split
      · assumption
      · exact ih

theorem scanPrev_le (s : List Char) (i : ℕ) : scanPrev s i ≤ i := by
  induction i with
  | zero => exact Nat.le_refl 0
  | succ j ih =>
      rw [scanPrev]
      split
      · exact Nat.le_refl _
      · omega

/-- The `next_char_position` loop stays within the string, lands on a
boundary, and never moves left. -/
theorem scanNextAux_bound (s : List Char) (fuel : ℕ) :
    ∀ i, utf8Len s ≤ i + fuel → i ≤ utf8Len s →
      scanNextAux s fuel i ≤ utf8Len s ∧
      isBoundary s (scanNextAux s fuel i) = true ∧
      i ≤ scanNextAux s fuel i := by
  induction fuel with
  | zero =>
      intro i hfuel hi
      have : i = utf8Len s := by omega
      rw [scanNextAux, this]
      exact ⟨Nat.le_refl _, isBoundary_utf8Len s, Nat.le_refl _⟩
  | succ f ih =>
      intro i hfuel hi
      rw [scanNextAux]
      split
      · exact ⟨hi, by assumption, Nat.le_refl i⟩
      · rename_i hnb
        have hne : i ≠ utf8Len s := by
          intro hc
          rw [hc] at hnb
          exact hnb (isBoundary_utf8Len s)
        obtain ⟨h1, h2, h3⟩ := ih (i + 1) (by omega) (by omega)
        exact ⟨h1, h2, by omega⟩

/-- The `next_char_position` loop skips only non-boundaries. -/
theorem scanNextAux_min (s : List Char) (fuel : ℕ) :
    ∀ i j, i ≤ j → j < scanNextAux s fuel i → isBoundary s j = false := by
  induction fuel with
  | zero =>
      intro i j hij hlt
      rw [scanNextAux] at hlt
      omega
  | succ f ih =>
      intro i j hij hlt
      rw [scanNextAux] at hlt
      split at hlt
      · omega
      · rename_i hnb
        rcases Nat.eq_or_lt_of_le hij with heq | hgt
        · rw [← heq]
          exact Bool.not_eq_true _ ▸ (by simpa using hnb)
        · exact ih (i + 1) j hgt hlt

/-- The `decr_cursor` loop started anywhere in the half-open gap above a
boundary `cur` that is free of other boundaries comes back to `cur`. -/
theorem scanPrev_eq_of (s : List Char) (cur : ℕ)
    (hcur : isBoundary s cur = true) :
    ∀ k, cur ≤ k → (∀ j, cur < j → j ≤ k → isBoundary s j = false) →
      scanPrev s k = cur := by
  intro k
  induction k with
  | zero =>
      intro hk _
      have : cur = 0 := by omega
      rw [scanPrev, this]
  | succ k ih =>
      intro hk hmid
      rcases Nat.eq_or_lt_of_le hk with heq | hgt
      · rw [heq, scanPrev, if_pos (heq ▸ hcur)]
      · rw [scanPrev, if_neg (by rw [hmid (k+1) hgt (Nat.le_refl _)]; simp)]
        exact ih (by omega) fun j h1 h2 => hmid j h1 (by omega)

theorem insertAt_some (c : Char) :
    ∀ (s : List Char) (i : ℕ), isBoundary s i = true →
      ∃ m, insertAt s i c = some m ∧
        utf8Len m = utf8Len s + c.utf8Size ∧
        isBoundary m i = true := by
  intro s
  induction s with
  | nil =>
      intro i hb
      cases i with
      | zero =>
          exact ⟨[c], rfl, by simp [utf8Len], isBoundary_zero _⟩
      | succ j => simp [isBoundary] at hb
  | cons d s ih =>
      intro i hb
      cases i with
      | zero =>
          refine ⟨c :: d :: s, rfl, ?_, isBoundary_zero _⟩
          simp only [utf8Len_cons]
          omega
      | succ j =>
          rw [isBoundary] at hb
          split at hb
          · simp at hb
          · rename_i hge
            obtain ⟨m, hm, hlen, hbm⟩ := ih _ hb
            refine ⟨d :: m, ?_, ?_, ?_⟩
            · rw [insertAt, if_neg hge, hm]
              rfl
            · rw [utf8Len_cons, utf8Len_cons, hlen]
              omega
            · rw [isBoundary, if_neg hge]
              exact hbm

theorem removeAt_some :
    ∀ (s : List Char) (i : ℕ), isBoundary s i = true → i < utf8Len s →
      ∃ m, removeAt s i = some m ∧
        isBoundary m i = true ∧
        i ≤ utf8Len m ∧ utf8Len m < utf8Len s := by
  intro s
  induction s with
  | nil =>
      intro i _ hlt
      simp [utf8Len] at hlt
  | cons d s ih =>
      intro i hb hlt
      cases i with
      | zero =>
          refine ⟨s, rfl, isBoundary_zero s, Nat.zero_le _, ?_⟩
          rw [utf8Len_cons]
          have := Char.utf8Size_pos d
          omega
      | succ j =>
          rw [isBoundary] at hb
          split at hb
          · simp at hb
          · rename_i hge
            rw [utf8Len_cons] at hlt
            obtain ⟨m, hm, hbm, hle, hlen⟩ := ih _ hb (by omega)
            refine ⟨d :: m, ?_, ?_, ?_, ?_⟩
            · rw [removeAt, if_neg hge, hm]
              rfl
            · rw [isBoundary, if_neg hge]
              exact hbm
            · rw [utf8Len_cons]
              omega
            · rw [utf8Len_cons, utf8Len_cons]
              omega

theorem incr_cursor_inv (st : TextInputComponent) (h : CursorInv st) :
    CursorInv st.incr_cursor ∧ st.incr_cursor.msg = st.msg := by
  rcases hnext : st.next_char_position with _ | pos
  · rw [TextInputComponent.incr_cursor, hnext]
    exact ⟨h, rfl⟩
  · rw [TextInputComponent.incr_cursor, hnext]
    rw [TextInputComponent.next_char_position] at hnext
    split at hnext
    · exact absurd hnext (by simp)
    · rename_i hge
      rw [not_le] at hge
      injection hnext with heq
      subst heq
      obtain ⟨h1, h2, _⟩ := scanNextAux_bound st.msg
        (utf8Len st.msg - (st.cursor_position + 1)) (st.cursor_position + 1)
        (by omega) (by omega)
      exact ⟨⟨h1, h2⟩, rfl⟩

theorem decr_cursor_inv (st : TextInputComponent) :
    CursorInv st.decr_cursor ∧ st.decr_cursor.msg = st.msg := by
  refine ⟨⟨?_, scanPrev_isBoundary _ _⟩, rfl⟩
  exact isBoundary_le _ _ (scanPrev_isBoundary st.msg (st.cursor_position - 1))

theorem backspace_inv (st : TextInputComponent) (h : CursorInv st) :
    ∃ st', st.backspace = some st' ∧ CursorInv st' := by
  rw [TextInputComponent.backspace]
  split
  · rename_i hpos
    have hd := scanPrev_le st.msg (st.cursor_position - 1)
    have hb := scanPrev_isBoundary st.msg (st.cursor_position - 1)
    have hlt : scanPrev st.msg (st.cursor_position - 1) < utf8Len st.msg := by
      have := h.1
      omega
    obtain ⟨m, hm, hbm, hle, _⟩ := removeAt_some st.msg _ hb hlt
    refine ⟨{ st.decr_cursor with msg := m }, ?_, ?_⟩
    · show (removeAt st.msg
          (scanPrev st.msg (st.cursor_position - 1))).map _ = _
      rw [hm]
      rfl
    · exact ⟨hle, hbm⟩
  · exact ⟨st, rfl, h⟩

theorem event_inv (st : TextInputComponent) (e : KeyEvent)
    (h : CursorInv st) :
    ∃ st' b, st.event e = some (st', b) ∧ CursorInv st' := by
  rw [TextInputComponent.event]
  by_cases hvis : st.visible
  · rw [if_pos hvis]
    by_cases hexit : e.isExitPopup
    · rw [if_pos hexit]
      exact ⟨st.hide, true, rfl, h⟩
    · rw [if_neg hexit]
      split
      · rename_i c heq
        by_cases hctrl : e.ctrl
        · rw [if_neg (not_not_intro hctrl)]
          exact ⟨st, false, rfl, h⟩
        · rw [if_pos hctrl]
          obtain ⟨m, hm, hlen, hbm⟩ := insertAt_some c st.msg _ h.2
          rw [hm]
          have hmid : CursorInv { st with msg := m } := by
            refine ⟨?_, hbm⟩
            show st.cursor_position ≤ utf8Len m
            have h1 := h.1
            omega
          obtain ⟨hinv, _⟩ := incr_cursor_inv { st with msg := m } hmid
          exact ⟨_, true, rfl, hinv⟩
      · split
        · rename_i hlt
          obtain ⟨m, hm, hbm, hle, _⟩ := removeAt_some st.msg _ h.2 hlt
          rw [hm]
          exact ⟨_, true, rfl, ⟨hle, hbm⟩⟩
        · exact ⟨st, true, rfl, h⟩
      · obtain ⟨st', hst', hinv⟩ := backspace_inv st h
        rw [hst']
        exact ⟨st', true, rfl, hinv⟩
      · exact ⟨st.decr_cursor, true, rfl, (decr_cursor_inv st).1⟩
      · exact ⟨st.incr_cursor, true, rfl, (incr_cursor_inv st h).1⟩
      · exact ⟨_, true, rfl, ⟨Nat.zero_le _, isBoundary_zero _⟩⟩
      · exact ⟨_, true, rfl, ⟨Nat.le_refl _, isBoundary_utf8Len _⟩⟩
      · exact ⟨st, false, rfl, h⟩
  · rw [if_neg hvis]
    exact ⟨st, false, rfl, h⟩

/-- Claim C9: every public operation of `TextInputComponent` keeps the
cursor at or before the end of `msg` and on a UTF-8 character boundary; in
particular `event` never panics (insert/remove always hit a boundary) and
never parks the cursor inside a multi-byte character. -/
theorem textinput_cursor_invariant (st : TextInputComponent)
    (h : CursorInv st) :
    (∀ title dm, CursorInv (TextInputComponent.new title dm)) ∧
    CursorInv st.clear ∧
    (∀ m, CursorInv (st.set_text m)) ∧
    (∀ t, CursorInv (st.set_title t)) ∧
    CursorInv st.show' ∧
    CursorInv st.hide ∧
    (∀ e, ∃ st' b, st.event e = some (st', b) ∧ CursorInv st') :=
  ⟨fun _ _ => ⟨Nat.zero_le _, isBoundary_zero _⟩,
    ⟨Nat.zero_le _, isBoundary_zero _⟩,
    fun m => ⟨Nat.zero_le _, isBoundary_zero m⟩,
    fun _ => h, h, h,
    fun e => event_inv st e h⟩

theorem textinput_cursor_invariant_witness :
    CursorInv ⟨"t", "d", ['a', '¢'], true, 1⟩ ∧
    (∃ st' b,
      TextInputComponent.event ⟨"t", "d", ['a', '¢'], true, 1⟩
          ⟨KeyCode.char '€', false, false⟩ = some (st', b) ∧
      CursorInv st') :=
  ⟨by decide,
    (textinput_cursor_invariant ⟨"t", "d", ['a', '¢'], true, 1⟩
      (by decide)).2.2.2.2.2.2 ⟨KeyCode.char '€', false, false⟩⟩

/-- Claim C10: from any interior character boundary, `incr_cursor` followed
by `decr_cursor` restores the cursor and leaves `msg` unchanged. -/
theorem incr_then_decr (st : TextInputComponent)
    (hb : isBoundary st.msg st.cursor_position = true)
    (hlt : st.cursor_position < utf8Len st.msg) :
    st.incr_cursor.decr_cursor.cursor_position = st.cursor_position ∧
    st.incr_cursor.decr_cursor.msg = st.msg := by
  rw [TextInputComponent.incr_cursor, TextInputComponent.next_char_position,
    if_neg (by omega)]
  have hbnd := scanNextAux_bound st.msg
    (utf8Len st.msg - (st.cursor_position + 1)) (st.cursor_position + 1)
    (by omega) (by omega)
  have hmin := scanNextAux_min st.msg
    (utf8Len st.msg - (st.cursor_position + 1))
  refine ⟨?_, rfl⟩
  rw [TextInputComponent.decr_cursor]
  show scanPrev st.msg (scanNext st.msg (st.cursor_position + 1) - 1) = _
  apply scanPrev_eq_of st.msg st.cursor_position hb
  · have := hbnd.2.2
    rw [scanNext]
    omega
  · intro j h1 h2
    apply hmin (st.cursor_position + 1) j (by omega)
    rw [scanNext] at h2
    omega

theorem incr_then_decr_witness :
    isBoundary (['a', '¢'] : List Char) 1 = true ∧
    1 < utf8Len ['a', '¢'] ∧
    (TextInputComponent.decr_cursor (TextInputComponent.incr_cursor
        ⟨"t", "d", ['a', '¢'], true, 1⟩)).cursor_position = 1 ∧
    (TextInputComponent.decr_cursor (TextInputComponent.incr_cursor
        ⟨"t", "d", ['a', '¢'], true, 1⟩)).msg = ['a', '¢'] :=
  ⟨by decide, by decide,
    (incr_then_decr ⟨"t", "d", ['a', '¢'], true, 1⟩ (by decide)
      (by decide)).1,
    (incr_then_decr ⟨"t", "d", ['a', '¢'], true, 1⟩ (by decide)
      (by decide)).2⟩
